import Mathlib

/-!
Shallow embedding of the temporal continuity filter
(`dataprocess/filter.py`, class `ContinuousFilter`) and of the
frame-number extraction it relies on, together with proofs of the
specified properties of `analyze_continuity` and
`extract_frame_number`.

The Python dict `{frame: path}` combined with the per-frame
`has_predictions` check is modelled as an association list
`List (Int × Bool)` pairing each frame index with its detection flag;
Python `set` results become `Finset Int`.
-/

namespace ContinuousFilter

/-- Detection-presence sequence: the items of the Python dict,
each frame index paired with `has_predictions(path)`. -/
abbrev FrameSeq := List (Int × Bool)

/-- `sorted([frame for frame, path in files_dict.items() if self.has_predictions(path)])`
(filter.py line 122). -/
def sortedFrames (files : FrameSeq) : List Int :=
  (((files.filter (fun p => p.2)).map Prod.fst)).insertionSort (· ≤ ·)

/-- `for k in range(consecutive_count): valid_frames.add(frames_with_predictions[i + k])`
(filter.py lines 145-146). -/
def addRun (frames : List Int) (i count : Nat) (valid : Finset Int) : Finset Int :=
  (List.range count).foldl (fun s k => insert (frames.getD (i + k) 0) s) valid

/-- The inner loop of `analyze_continuity` (filter.py lines 136-149):
walk the tail of the sorted frame list, extending the run while each
next frame equals `current + 1`, adding the whole run so far whenever
`consecutive_count` reaches the threshold, and stopping at the first gap. -/
def scanRun (frames : List Int) (threshold : Int) (i : Nat) :
    List Int → Nat → Int → Finset Int → Finset Int
  | [], _count, _current, valid => valid
  | next :: rest, count, current, valid =>
    if next = current + 1 then
      scanRun frames threshold i rest (count + 1) next
        (if threshold ≤ ((count + 1 : Nat) : Int) then addRun frames i (count + 1) valid
         else valid)
    else valid

/-- `ContinuousFilter.analyze_continuity` (filter.py lines 108-151):
empty dict short-circuit, the below-threshold count short-circuit, then
the outer loop over every index of the sorted detection-present frame
list as a potential run start. -/
def analyze_continuity (files : FrameSeq) (threshold : Int) : Finset Int :=
  if files = [] then ∅
  else
    let frames := sortedFrames files
    if (frames.length : Int) < threshold then ∅
    else
      (List.range frames.length).foldl
        (fun valid i =>
          scanRun frames threshold i (frames.drop (i + 1)) 1 (frames.getD i 0) valid) ∅

/-- Length of the maximal stride-1 extension of a run whose last element
is `current`, along the remaining tail of the sorted frame list. -/
def extendLen : Int → List Int → Nat
  | _, [] => 0
  | current, next :: rest => if next = current + 1 then extendLen next rest + 1 else 0

/-- Total length of the maximal consecutive run of `frames` that starts
at position `i` (the run the inner loop of `analyze_continuity` traverses). -/
def runLen (frames : List Int) (i : Nat) : Nat :=
  1 + extendLen (frames.getD i 0) (frames.drop (i + 1))

/-- The set of entries `frames[i], …, frames[i+count-1]`. -/
def blockFrom (frames : List Int) (i count : Nat) : Finset Int :=
  (Finset.range count).image (fun k => frames.getD (i + k) 0)

theorem addRun_eq (frames : List Int) (i : Nat) :
    ∀ (count : Nat) (valid : Finset Int),
      addRun frames i count valid = valid ∪ blockFrom frames i count := by
  intro count
  induction count with
  | zero => intro valid; simp [addRun, blockFrom]
  | succ c ih =>
    intro valid
    have h1 : addRun frames i (c + 1) valid
        = insert (frames.getD (i + c) 0) (addRun frames i c valid) := by
      simp [addRun, List.range_succ]
    have h2 : blockFrom frames i (c + 1)
        = insert (frames.getD (i + c) 0) (blockFrom frames i c) := by
      simp [blockFrom, Finset.range_succ, Finset.image_insert]
    rw [h1, ih, h2, Finset.union_insert]

theorem blockFrom_mono (frames : List Int) (i : Nat) {c c' : Nat} (h : c ≤ c') :
    blockFrom frames i c ⊆ blockFrom frames i c' :=
  Finset.image_subset_image (Finset.range_subset.mpr h)

/-- Closed form of the inner loop: starting from a run of current length
`count` ending at `current`, the loop adds the whole maximal extension of
the run — and nothing else — provided the run actually extends and its
final length reaches the threshold. -/
theorem scanRun_closed (frames : List Int) (N : Int) (i : Nat) :
    ∀ (rest : List Int) (count : Nat) (current : Int) (valid : Finset Int),
      scanRun frames N i rest count current valid =
        if 0 < extendLen current rest ∧
            N ≤ ((count + extendLen current rest : Nat) : Int) then
          valid ∪ blockFrom frames i (count + extendLen current rest)
        else valid := by
  intro rest
  induction rest with
  | nil => intro count current valid; simp [scanRun, extendLen]
  | cons next rest ih =>
    intro count current valid
    by_cases hc : next = current + 1
    · have he : extendLen current (next :: rest) = extendLen next rest + 1 := by
        simp [extendLen, hc]
      rw [scanRun, if_pos hc, ih, addRun_eq, he]
      obtain ⟨E, hE⟩ : ∃ E, extendLen next rest = E := ⟨_, rfl⟩
      rw [hE]
      have harith : count + (E + 1) = count + 1 + E := by omega
      rw [harith]
      rcases Nat.eq_zero_or_pos E with hE0 | hEpos
      · subst hE0
        simp only [Nat.lt_irrefl, false_and, if_false, Nat.add_zero]
        split_ifs with h1 h2 h3 <;> first | rfl | omega
      · have habs : ∀ v : Finset Int,
            (v ∪ blockFrom frames i (count + 1)) ∪ blockFrom frames i (count + 1 + E)
              = v ∪ blockFrom frames i (count + 1 + E) := by
          intro v
          rw [Finset.union_assoc,
            Finset.union_eq_right.mpr (blockFrom_mono frames i (by omega))]
        split_ifs with h1 h2 h3 h4 <;>
          first
          | rfl
          | (exact habs valid)
          | omega
    · have he : extendLen current (next :: rest) = 0 := by
        simp [extendLen, hc]
      rw [scanRun, if_neg hc, he]
      simp

/-- The contribution of outer-loop start index `i` to the valid set. -/
def startSet (frames : List Int) (N : Int) (i : Nat) : Finset Int :=
  if 2 ≤ runLen frames i ∧ N ≤ ((runLen frames i : Nat) : Int) then
    blockFrom frames i (runLen frames i)
  else ∅

theorem scanRun_start (frames : List Int) (N : Int) (i : Nat) (valid : Finset Int) :
    scanRun frames N i (frames.drop (i + 1)) 1 (frames.getD i 0) valid
      = valid ∪ startSet frames N i := by
  rw [scanRun_closed]
  unfold startSet runLen
  split_ifs with h1 h2 h3 <;>
    first
    | rfl
    | omega
    | (exact (Finset.union_empty valid).symm)

theorem foldl_union_mem (g : Nat → Finset Int) :
    ∀ (l : List Nat) (v : Finset Int) (x : Int),
      (x ∈ l.foldl (fun s i => s ∪ g i) v) ↔ x ∈ v ∨ ∃ i ∈ l, x ∈ g i := by
  intro l
  induction l with
  | nil => simp
  | cons a l ih =>
    intro v x
    rw [List.foldl_cons, ih]
    simp only [Finset.mem_union, List.mem_cons]
    constructor
    · rintro (⟨hv | hg⟩ | ⟨i, hi, hg⟩)
      · exact Or.inl hv
      · exact Or.inr ⟨a, Or.inl rfl, hg⟩
      · exact Or.inr ⟨i, Or.inr hi, hg⟩
    · rintro (hv | ⟨i, (rfl | hi), hg⟩)
      · exact Or.inl (Or.inl hv)
      · exact Or.inl (Or.inr hg)
      · exact Or.inr ⟨i, hi, hg⟩

/-- Membership in the result of `analyze_continuity`, in the main
(non-short-circuit) case: the union over every outer-loop start. -/
theorem mem_analyze_aux (files : FrameSeq) (N : Int) (x : Int)
    (h1 : ¬ files = []) (h2 : ¬ ((sortedFrames files).length : Int) < N) :
    x ∈ analyze_continuity files N ↔
      ∃ i < (sortedFrames files).length, x ∈ startSet (sortedFrames files) N i := by
  unfold analyze_continuity
  rw [if_neg h1]
  simp only []
  rw [if_neg h2]
  have hfold :
      (List.range (sortedFrames files).length).foldl
        (fun valid i =>
          scanRun (sortedFrames files) N i ((sortedFrames files).drop (i + 1)) 1
            ((sortedFrames files).getD i 0) valid) ∅
      = (List.range (sortedFrames files).length).foldl
          (fun valid i => valid ∪ startSet (sortedFrames files) N i) ∅ := by
    apply List.foldl_ext
    intro s a _ha
    exact scanRun_start (sortedFrames files) N a s
  rw [hfold, foldl_union_mem]
  simp [List.mem_range]

theorem getD_drop (l : List Int) (i k : Nat) :
    (l.drop i).getD k 0 = l.getD (i + k) 0 := by
  rw [List.getD_eq_getElem?_getD, List.getD_eq_getElem?_getD, List.getElem?_drop]

theorem extendLen_le_length : ∀ (l : List Int) (c : Int), extendLen c l ≤ l.length := by
  intro l
  induction l with
  | nil => intro c; simp [extendLen]
  | cons next rest ih =>
    intro c
    by_cases h : next = c + 1
    · simp only [extendLen, if_pos h, List.length_cons]
      exact Nat.succ_le_succ (ih next)
    · simp [extendLen, if_neg h]

theorem extendLen_run : ∀ (l : List Int) (c : Int) (k : Nat),
    k < extendLen c l → l.getD k 0 = c + 1 + k := by
  intro l
  induction l with
  | nil => intro c k hk; simp [extendLen] at hk
  | cons next rest ih =>
    intro c k hk
    by_cases h : next = c + 1
    · rw [extendLen, if_pos h] at hk
      cases k with
      | zero => simpa [List.getD] using h
      | succ k =>
        have hk' : k < extendLen next rest := by omega
        have := ih next k hk'
        have hgd : (next :: rest).getD (k + 1) 0 = rest.getD k 0 := by
          simp [List.getD]
        rw [hgd, this, h]
        push_cast
        ring
    · rw [extendLen, if_neg h] at hk
      omega

theorem extendLen_max : ∀ (l : List Int) (c : Int) (L : Nat),
    L ≤ l.length → (∀ k, k < L → l.getD k 0 = c + 1 + k) → L ≤ extendLen c l := by
  intro l
  induction l with
  | nil => intro c L hL _; simpa [extendLen] using hL
  | cons next rest ih =>
    intro c L hL hrun
    cases L with
    | zero => exact Nat.zero_le _
    | succ L =>
      have h0 : next = c + 1 := by
        have := hrun 0 (Nat.succ_pos L)
        simpa [List.getD] using this
      rw [extendLen, if_pos h0]
      have hL' : L ≤ rest.length := by
        simp only [List.length_cons] at hL
        omega
      have hrun' : ∀ k, k < L → rest.getD k 0 = next + 1 + k := by
        intro k hk
        have := hrun (k + 1) (by omega)
        have hgd : (next :: rest).getD (k + 1) 0 = rest.getD k 0 := by
          simp [List.getD]
        rw [hgd] at this
        rw [this, h0]
        push_cast
        ring
      exact Nat.succ_le_succ (ih next L hL' hrun')

theorem runLen_pos (frames : List Int) (i : Nat) : 1 ≤ runLen frames i :=
  Nat.le_add_right 1 _

theorem runLen_le (frames : List Int) (i : Nat) (h : i < frames.length) :
    i + runLen frames i ≤ frames.length := by
  unfold runLen
  have h1 := extendLen_le_length (frames.drop (i + 1)) (frames.getD i 0)
  rw [List.length_drop] at h1
  omega

theorem runLen_run (frames : List Int) (i : Nat) (k : Nat) (hk : k < runLen frames i) :
    frames.getD (i + k) 0 = frames.getD i 0 + k := by
  cases k with
  | zero => simp
  | succ k =>
    have hk' : k < extendLen (frames.getD i 0) (frames.drop (i + 1)) := by
      unfold runLen at hk
      omega
    have h1 := extendLen_run (frames.drop (i + 1)) (frames.getD i 0) k hk'
    rw [getD_drop] at h1
    have hidx : i + (k + 1) = i + 1 + k := by omega
    rw [hidx, h1]
    push_cast
    ring

theorem runLen_max (frames : List Int) (i : Nat) (L : Nat)
    (hL : i + L ≤ frames.length)
    (hrun : ∀ k, k < L → frames.getD (i + k) 0 = frames.getD i 0 + k) :
    L ≤ runLen frames i := by
  cases L with
  | zero => exact Nat.zero_le _
  | succ L =>
    unfold runLen
    have hL' : L ≤ (frames.drop (i + 1)).length := by
      rw [List.length_drop]
      omega
    have hrun' : ∀ k, k < L →
        (frames.drop (i + 1)).getD k 0 = frames.getD i 0 + 1 + k := by
      intro k hk
      rw [getD_drop]
      have := hrun (k + 1) (by omega)
      have hidx : i + (k + 1) = i + 1 + k := by omega
      rw [hidx] at this
      rw [this]
      push_cast
      ring
    have := extendLen_max (frames.drop (i + 1)) (frames.getD i 0) L hL' hrun'
    omega

theorem sortedFrames_sorted (files : FrameSeq) :
    (sortedFrames files).Sorted (· ≤ ·) :=
  List.sorted_insertionSort _ _

theorem sortedFrames_nodup (files : FrameSeq)
    (hnd : (files.map Prod.fst).Nodup) : (sortedFrames files).Nodup := by
  have hbase : (((files.filter (fun p => p.2)).map Prod.fst)).Nodup := by
    have hsub : ((files.filter (fun p => p.2)).map Prod.fst).Sublist (files.map Prod.fst) :=
      (List.filter_sublist files).map Prod.fst
    exact hnd.sublist hsub
  exact ((List.perm_insertionSort (· ≤ ·) _).nodup_iff).mpr hbase

theorem sortedFrames_sorted_lt (files : FrameSeq)
    (hnd : (files.map Prod.fst).Nodup) : (sortedFrames files).Sorted (· < ·) :=
  (sortedFrames_sorted files).lt_of_le (sortedFrames_nodup files hnd)

theorem mem_sortedFrames (files : FrameSeq) (x : Int) :
    x ∈ sortedFrames files ↔ (x, true) ∈ files := by
  unfold sortedFrames
  rw [List.mem_insertionSort]
  simp only [List.mem_map, List.mem_filter]
  constructor
  · rintro ⟨⟨a1, a2⟩, ⟨ha, h2⟩, h1⟩
    simp only at h1 h2
    subst h1
    cases a2
    · simp at h2
    · exact ha
  · intro h
    exact ⟨(x, true), ⟨h, rfl⟩, rfl⟩

theorem mem_iff_getD (l : List Int) (x : Int) :
    x ∈ l ↔ ∃ i, i < l.length ∧ l.getD i 0 = x := by
  rw [List.mem_iff_getElem]
  constructor
  · rintro ⟨i, hi, hx⟩
    exact ⟨i, hi, by rw [List.getD_eq_getElem l 0 hi, hx]⟩
  · rintro ⟨i, hi, hx⟩
    exact ⟨i, hi, by rw [← List.getD_eq_getElem l 0 hi, hx]⟩

theorem getD_mem (l : List Int) (i : Nat) (h : i < l.length) : l.getD i 0 ∈ l := by
  rw [List.getD_eq_getElem l 0 h]
  exact List.getElem_mem h

theorem sorted_getD_lt (frames : List Int) (hs : frames.Sorted (· < ·))
    {i j : Nat} (hij : i < j) (hj : j < frames.length) :
    frames.getD i 0 < frames.getD j 0 := by
  have hi : i < frames.length := lt_trans hij hj
  rw [List.getD_eq_getElem frames 0 hi, List.getD_eq_getElem frames 0 hj]
  exact List.pairwise_iff_getElem.mp hs i j hi hj hij

/-- In a strictly sorted integer list, the entry equal to `frames[i] + 1`
(if present) sits exactly at position `i + 1`. -/
theorem succ_index (frames : List Int) (hs : frames.Sorted (· < ·))
    {i j : Nat} (hi : i < frames.length) (hj : j < frames.length)
    (h : frames.getD j 0 = frames.getD i 0 + 1) : j = i + 1 := by
  rcases lt_trichotomy i j with hij | hij | hij
  · by_contra hne
    have hi1 : i + 1 < j := by omega
    have h1 : frames.getD i 0 < frames.getD (i + 1) 0 :=
      sorted_getD_lt frames hs (by omega) (by omega)
    have h2 : frames.getD (i + 1) 0 < frames.getD j 0 :=
      sorted_getD_lt frames hs hi1 hj
    omega
  · subst hij
    omega
  · have := sorted_getD_lt frames hs hij hi
    omega

/-- The specification's valid-set membership predicate: `x` lies in some
contiguous stride-1 block of detection-present frame indices whose length
is at least `N`.  (Membership in a block of length `≥ N` is equivalent to
membership in a maximal such block, since any block extends to a maximal
one.) -/
def validSpec (files : FrameSeq) (N : Int) (x : Int) : Prop :=
  ∃ a b : Int, a ≤ x ∧ x ≤ b ∧ N ≤ b + 1 - a ∧
    ∀ y : Int, a ≤ y → y ≤ b → (y, true) ∈ files

/-- Master characterization: a frame is returned by `analyze_continuity`
exactly when it lies in a contiguous detection-present block of length at
least `max threshold 2` — the effective threshold is never below 2 because
the inner loop only records a run after extending it at least once. -/
theorem mem_analyze_iff (files : FrameSeq) (N : Int)
    (hnd : (files.map Prod.fst).Nodup) (x : Int) :
    x ∈ analyze_continuity files N ↔ validSpec files (max N 2) x := by
  by_cases hnil : files = []
  · subst hnil
    constructor
    · intro hx
      simp [analyze_continuity] at hx
    · rintro ⟨a, b, hax, hxb, _, hall⟩
      exact absurd (hall x hax hxb) (List.not_mem_nil _)
  · by_cases hsc : ((sortedFrames files).length : Int) < N
    · have hres : analyze_continuity files N = ∅ := by
        unfold analyze_continuity
        rw [if_neg hnil]
        simp only []
        rw [if_pos hsc]
      rw [hres]
      simp only [Finset.not_mem_empty, false_iff]
      rintro ⟨a, b, hax, hxb, hlen, hall⟩
      have hN : N ≤ b + 1 - a := le_trans (le_max_left _ _) hlen
      have hsub : Finset.Icc a b ⊆ (sortedFrames files).toFinset := by
        intro y hy
        rw [Finset.mem_Icc] at hy
        rw [List.mem_toFinset, mem_sortedFrames]
        exact hall y hy.1 hy.2
      have hcard := Finset.card_le_card hsub
      rw [Int.card_Icc] at hcard
      have hlen2 := List.toFinset_card_le (sortedFrames files)
      omega
    · rw [mem_analyze_aux files N x hnil hsc]
      have hslt := sortedFrames_sorted_lt files hnd
      constructor
      · rintro ⟨i, hi, hx⟩
        unfold startSet at hx
        by_cases hcond : 2 ≤ runLen (sortedFrames files) i ∧
            N ≤ ((runLen (sortedFrames files) i : Nat) : Int)
        · rw [if_pos hcond] at hx
          obtain ⟨h2run, hNrun⟩ := hcond
          unfold blockFrom at hx
          rw [Finset.mem_image] at hx
          obtain ⟨k, hk, hkx⟩ := hx
          rw [Finset.mem_range] at hk
          have hrunk := runLen_run (sortedFrames files) i k hk
          have hxval : x = (sortedFrames files).getD i 0 + (k : Int) := by
            rw [← hkx, hrunk]
          refine ⟨(sortedFrames files).getD i 0,
            (sortedFrames files).getD i 0 + ((runLen (sortedFrames files) i : Nat) : Int) - 1,
            by omega, by omega, ?_, ?_⟩
          · rw [max_le_iff]
            constructor <;> omega
          · intro y hay hyb
            have hky : ((y - (sortedFrames files).getD i 0).toNat) <
                runLen (sortedFrames files) i := by omega
            have hgy := runLen_run (sortedFrames files) i _ hky
            have hmemb : i + (y - (sortedFrames files).getD i 0).toNat <
                (sortedFrames files).length := by
              have := runLen_le (sortedFrames files) i hi
              omega
            have hyval : (sortedFrames files).getD
                (i + (y - (sortedFrames files).getD i 0).toNat) 0 = y := by
              rw [hgy]
              omega
            rw [← hyval]
            exact (mem_sortedFrames files _).mp (getD_mem _ _ hmemb)
        · rw [if_neg hcond] at hx
          exact absurd hx (Finset.not_mem_empty x)
      · rintro ⟨a, b, hax, hxb, hlen, hall⟩
        have hN2 : (2 : Int) ≤ b + 1 - a := le_trans (le_max_right _ _) hlen
        have hNle : N ≤ b + 1 - a := le_trans (le_max_left _ _) hlen
        have hamem : a ∈ sortedFrames files :=
          (mem_sortedFrames files a).mpr (hall a le_rfl (by omega))
        obtain ⟨i, hi, hia⟩ := (mem_iff_getD _ a).mp hamem
        have hchain : ∀ k, k ≤ (b - a).toNat →
            i + k < (sortedFrames files).length ∧
              (sortedFrames files).getD (i + k) 0 = a + (k : Int) := by
          intro k
          induction k with
          | zero => intro _; exact ⟨by simpa using hi, by simpa using hia⟩
          | succ k ih =>
            intro hk
            obtain ⟨hik, hgk⟩ := ih (by omega)
            have hpres : ((a + ((k : Int) + 1)), true) ∈ files :=
              hall _ (by omega) (by omega)
            have hmemf : (a + ((k : Int) + 1)) ∈ sortedFrames files :=
              (mem_sortedFrames _ _).mpr hpres
            obtain ⟨j, hj, hjv⟩ := (mem_iff_getD _ _).mp hmemf
            have hjsucc : j = (i + k) + 1 := by
              apply succ_index (sortedFrames files) hslt hik hj
              rw [hjv, hgk]
              ring
            subst hjsucc
            constructor
            · have : i + (k + 1) = i + k + 1 := by omega
              rw [this]
              exact hj
            · have hidx : i + (k + 1) = i + k + 1 := by omega
              rw [hidx, hjv]
              push_cast
              ring
        have hrl : (b - a).toNat + 1 ≤ runLen (sortedFrames files) i := by
          apply runLen_max
          · have := (hchain (b - a).toNat le_rfl).1
            omega
          · intro k hk
            rw [hia]
            exact (hchain k (by omega)).2
        refine ⟨i, hi, ?_⟩
        unfold startSet
        rw [if_pos ⟨by omega, by omega⟩]
        unfold blockFrom
        rw [Finset.mem_image]
        refine ⟨(x - a).toNat, ?_, ?_⟩
        · rw [Finset.mem_range]
          omega
        · have := (hchain (x - a).toNat (by omega)).2
          rw [this]
          omega

/-- `re.findall(r'\d+', filename)` (filter.py line 82): the maximal runs
of decimal digits in the name, in order.  `acc` holds the digits of the
run currently being read, reversed. -/
def digitRunsAux : List Char → List Char → List (List Char)
  | [], acc => if acc = [] then [] else [acc.reverse]
  | c :: rest, acc =>
    if c.isDigit then digitRunsAux rest (c :: acc)
    else if acc = [] then digitRunsAux rest []
    else acc.reverse :: digitRunsAux rest []

def digitRuns (s : List Char) : List (List Char) := digitRunsAux s []

/-- Python `int` applied to a string of decimal digits. -/
def digitsToNat (ds : List Char) : Nat :=
  ds.foldl (fun n c => n * 10 + (c.toNat - 48)) 0

/-- Strip a case-insensitive `.txt` suffix — the `\.txt$` tail shared by
all five filename patterns of `extract_frame_number`, compiled with
`re.IGNORECASE` — returning the remaining core of the name, reversed. -/
def txtCoreRev (s : List Char) : Option (List Char) :=
  match s.reverse with
  | t1 :: x :: t2 :: d :: restRev =>
    if t1.toLower = 't' ∧ x.toLower = 'x' ∧ t2.toLower = 't' ∧ d = '.' then some restRev
    else none
  | _ => none

/-- `re.search(r'(\d+)\.txt$', filename)` (filter.py line 69): the maximal
digit run immediately before the `.txt` suffix, if nonempty. -/
def pat1 (s : List Char) : Option (List Char) :=
  match txtCoreRev s with
  | none => none
  | some coreRev =>
    let ds := coreRev.takeWhile Char.isDigit
    if ds = [] then none else some ds.reverse

/-- `re.search(r'_(\d+)\.txt$', filename)` (filter.py line 70): as `pat1`,
additionally requiring an underscore immediately before the digit run. -/
def pat2 (s : List Char) : Option (List Char) :=
  match txtCoreRev s with
  | none => none
  | some coreRev =>
    let ds := coreRev.takeWhile Char.isDigit
    if ds = [] then none
    else
      match coreRev.dropWhile Char.isDigit with
      | '_' :: _ => some ds.reverse
      | _ => none

/-- Case-insensitive keyword test: does `l` start with the keyword
`keyRev` (supplied reversed and lowercase)? -/
def startsCI : List Char → List Char → Bool
  | [], _ => true
  | _ :: _, [] => false
  | k :: ks, c :: cs => k = c.toLower && startsCI ks cs

/-- `re.search(r'<key>_?(\d+)\.txt$', filename, re.IGNORECASE)` for the
keywords `frame`, `img`, `image` (filter.py lines 71-73): a digit run
immediately before `.txt`, preceded by an optional underscore and the
keyword. -/
def patKeyed (keyRev : List Char) (s : List Char) : Option (List Char) :=
  match txtCoreRev s with
  | none => none
  | some coreRev =>
    let ds := coreRev.takeWhile Char.isDigit
    if ds = [] then none
    else
      let rest :=
        match coreRev.dropWhile Char.isDigit with
        | '_' :: r => r
        | r => r
      if startsCI keyRev rest then some ds.reverse else none

/-- `ContinuousFilter.extract_frame_number` (filter.py lines 57-86): try
the five filename patterns in order; failing those, fall back to the last
digit run found anywhere in the name; failing that, return `-1`. -/
def extract_frame_number (s : List Char) : Int :=
  match pat1 s <|> pat2 s <|> patKeyed ['e', 'm', 'a', 'r', 'f'] s <|>
      patKeyed ['g', 'm', 'i'] s <|> patKeyed ['e', 'g', 'a', 'm', 'i'] s with
  | some ds => (digitsToNat ds : Int)
  | none =>
    match (digitRuns s).getLast? with
    | some ds => (digitsToNat ds : Int)
    | none => -1

/-- The frame-mapping construction step of `process_all` (filter.py lines
179-185): only files whose extracted frame number is non-negative enter
the mapping; the rest are skipped. -/
def keptNames (names : List (List Char)) : List (List Char) :=
  names.filter (fun nm => decide (0 ≤ extract_frame_number nm))

theorem digitRunsAux_eq_nil : ∀ (s acc : List Char),
    digitRunsAux s acc = [] ↔ acc = [] ∧ ∀ c ∈ s, c.isDigit = false := by
  intro s
  induction s with
  | nil =>
    intro acc
    unfold digitRunsAux
    split_ifs with h <;> simp [h]
  | cons c rest ih =>
    intro acc
    unfold digitRunsAux
    by_cases hd : c.isDigit = true
    · rw [if_pos hd, ih]
      constructor
      · rintro ⟨h, _⟩
        exact absurd h (List.cons_ne_nil c acc)
      · rintro ⟨_, hall⟩
        exact absurd (hall c (List.mem_cons_self c rest)) (by simp [hd])
    · rw [if_neg hd]
      by_cases hacc : acc = []
      · rw [if_pos hacc, ih]
        simp only [List.forall_mem_cons, hacc, true_and]
        constructor
        · intro h
          exact ⟨by simpa using hd, h⟩
        · rintro ⟨_, h⟩
          exact h
      · rw [if_neg hacc]
        simp [hacc]

theorem txtCoreRev_subset {s coreRev : List Char} (h : txtCoreRev s = some coreRev) :
    ∀ c, c ∈ coreRev → c ∈ s := by
  intro c hc
  rw [← List.mem_reverse]
  unfold txtCoreRev at h
  rcases hrev : s.reverse with _ | ⟨t1, _ | ⟨x, _ | ⟨t2, _ | ⟨d, restRev⟩⟩⟩⟩ <;>
    rw [hrev] at h <;> simp only [] at h <;>
    try exact Option.noConfusion h
  split_ifs at h with hcond
  all_goals
    first
    | exact Option.noConfusion h
    | (obtain rfl : restRev = coreRev := Option.some.inj h
       simp [hc])

theorem takeWhile_digit_nil {s : List Char} (hnod : s.any Char.isDigit = false)
    {coreRev : List Char} (h : txtCoreRev s = some coreRev) :
    coreRev.takeWhile Char.isDigit = [] := by
  cases hcr : coreRev with
  | nil => simp
  | cons c r =>
    have hcs : c ∈ s := txtCoreRev_subset h c (by rw [hcr]; exact List.mem_cons_self c r)
    have hcd : c.isDigit = false := by
      rw [List.any_eq_false] at hnod
      simpa using hnod c hcs
    simp [List.takeWhile_cons, hcd]

theorem pat1_none {s : List Char} (hnod : s.any Char.isDigit = false) :
    pat1 s = none := by
  unfold pat1
  cases h : txtCoreRev s with
  | none => rfl
  | some coreRev => simp [takeWhile_digit_nil hnod h]

theorem pat2_none {s : List Char} (hnod : s.any Char.isDigit = false) :
    pat2 s = none := by
  unfold pat2
  cases h : txtCoreRev s with
  | none => rfl
  | some coreRev => simp [takeWhile_digit_nil hnod h]

theorem patKeyed_none {s : List Char} (keyRev : List Char)
    (hnod : s.any Char.isDigit = false) : patKeyed keyRev s = none := by
  unfold patKeyed
  cases h : txtCoreRev s with
  | none => rfl
  | some coreRev => simp [takeWhile_digit_nil hnod h]

theorem extract_eq_neg_one_of_no_digit {s : List Char}
    (hnod : s.any Char.isDigit = false) : extract_frame_number s = -1 := by
  unfold extract_frame_number
  rw [pat1_none hnod, pat2_none hnod, patKeyed_none _ hnod, patKeyed_none _ hnod,
    patKeyed_none _ hnod]
  have hruns : digitRuns s = [] := by
    rw [digitRuns, digitRunsAux_eq_nil]
    rw [List.any_eq_false] at hnod
    exact ⟨rfl, fun c hc => by simpa using hnod c hc⟩
  rw [hruns]
  rfl

theorem extract_nonneg_of_digit {s : List Char}
    (hdig : s.any Char.isDigit = true) : 0 ≤ extract_frame_number s := by
  unfold extract_frame_number
  cases hm : pat1 s <|> pat2 s <|> patKeyed ['e', 'm', 'a', 'r', 'f'] s <|>
      patKeyed ['g', 'm', 'i'] s <|> patKeyed ['e', 'g', 'a', 'm', 'i'] s with
  | some ds => exact Int.natCast_nonneg _
  | none =>
    have hruns : ¬ digitRuns s = [] := by
      rw [digitRuns, digitRunsAux_eq_nil]
      rintro ⟨_, hall⟩
      rw [List.any_eq_true] at hdig
      obtain ⟨c, hc, hcd⟩ := hdig
      exact absurd (hall c hc) (by simp [hcd])
    have hsome : (digitRuns s).getLast?.isSome := List.getLast?_isSome.mpr hruns
    obtain ⟨ds, hds⟩ := Option.isSome_iff_exists.mp hsome
    rw [hds]
    exact Int.natCast_nonneg _

/-- Shared helper for C3/C6: the short-circuit `if len(frames_with_predictions)
< self.continuous_threshold: return set()` makes the result empty whenever the
number of detection-present entries is below the threshold. -/
theorem analyze_eq_empty_of_count_lt (files : FrameSeq) (N : Int)
    (hcount : ((files.filter (fun p => p.2)).length : Int) < N) :
    analyze_continuity files N = ∅ := by
  have hlen : (sortedFrames files).length = (files.filter (fun p => p.2)).length := by
    unfold sortedFrames
    rw [List.length_insertionSort, List.length_map]
  by_cases hnil : files = []
  · simp [analyze_continuity, hnil]
  · unfold analyze_continuity
    rw [if_neg hnil]
    simp only []
    rw [if_pos (by rw [hlen]; exact hcount)]

/-- C1 counterexample: the claimed iff fails at threshold 1.  For the
single-frame input {0 ↦ present} and threshold N = 1, frame 0 lies in a
maximal contiguous detection-present block of length 1 ≥ N, yet
`analyze_continuity` returns the empty set (the inner loop only records a
run after extending it at least once). -/
theorem C1_counterexample :
    validSpec [((0 : Int), true)] 1 0 ∧
      0 ∉ analyze_continuity [((0 : Int), true)] 1 := by
  constructor
  · refine ⟨0, 0, le_rfl, le_rfl, by norm_num, ?_⟩
    intro y h1 h2
    have hy : y = 0 := le_antisymm h2 h1
    subst hy
    exact List.mem_cons_self _ _
  · decide

/-- C1 (amended): for every input mapping with unique keys and every
threshold N ≥ 2, the set returned by `analyze_continuity` contains a frame
index iff that index lies within some contiguous stride-1 block of
detection-present indices of length at least N.  (For N = 1 the code
behaves as if N were 2.) -/
theorem C1_theorem (files : FrameSeq) (N : Int) (h2 : 2 ≤ N)
    (hnd : (files.map Prod.fst).Nodup) (x : Int) :
    x ∈ analyze_continuity files N ↔ validSpec files N x := by
  rw [mem_analyze_iff files N hnd x, max_eq_left h2]

/-- Witness for C1: the amended iff evaluated at a concrete input. -/
theorem C1_witness :
    (2 : Int) ≤ 2 ∧ (([((0 : Int), true), (1, true)] : FrameSeq).map Prod.fst).Nodup ∧
      ((0 : Int) ∈ analyze_continuity [((0 : Int), true), (1, true)] 2 ↔
        validSpec [((0 : Int), true), (1, true)] 2 0) :=
  ⟨le_rfl, by decide, C1_theorem [((0 : Int), true), (1, true)] 2 le_rfl (by decide) 0⟩

/-- C2 counterexample: with threshold N = 1 and a single contiguous
detection-present block of length exactly 1 (frame 0 alone), the claim
demands that all 1 indices of the block be returned, but
`analyze_continuity` returns the empty set. -/
theorem C2_counterexample :
    (∀ y : Int, ((y, true) ∈ ([((0 : Int), true)] : FrameSeq)) ↔ 0 ≤ y ∧ y < 0 + 1) ∧
      0 ∉ analyze_continuity [((0 : Int), true)] 1 := by
  constructor
  · intro y
    constructor
    · intro h
      simp at h
      omega
    · intro h
      have hy : y = 0 := by omega
      subst hy
      exact List.mem_cons_self _ _
  · decide

/-- C2 (amended): for every threshold N ≥ 2, if the detection-present set
is exactly one contiguous block of length exactly N, every one of the N
indices of that block is returned. -/
theorem C2_theorem (files : FrameSeq) (N a : Int) (h2 : 2 ≤ N)
    (hnd : (files.map Prod.fst).Nodup)
    (hblock : ∀ y : Int, ((y, true) ∈ files) ↔ a ≤ y ∧ y < a + N) :
    ∀ x : Int, a ≤ x → x < a + N → x ∈ analyze_continuity files N := by
  intro x hx1 hx2
  rw [mem_analyze_iff files N hnd x, max_eq_left h2]
  exact ⟨a, a + N - 1, by omega, by omega, by omega,
    fun y hy1 hy2 => (hblock y).mpr ⟨hy1, by omega⟩⟩

/-- Witness for C2: a block of length exactly 2 at threshold 2. -/
theorem C2_witness : (5 : Int) ∈ analyze_continuity [((5 : Int), true), (6, true)] 2 := by
  apply C2_theorem [((5 : Int), true), (6, true)] 2 5 le_rfl (by decide) ?_ 5 le_rfl (by norm_num)
  intro y
  constructor
  · intro h
    simp at h
    omega
  · intro h
    have hy : y = 5 ∨ y = 6 := by omega
    rcases hy with hy | hy <;> subst hy <;> simp

/-- C3: if the number of detection-present frames is strictly below the
threshold, `analyze_continuity` returns the empty set, regardless of the
arrangement of those frames. -/
theorem C3_theorem (files : FrameSeq) (N : Int) (_h1 : 1 ≤ N)
    (hcount : ((files.filter (fun p => p.2)).length : Int) < N) :
    analyze_continuity files N = ∅ :=
  analyze_eq_empty_of_count_lt files N hcount

/-- Witness for C3: one present frame, threshold 2. -/
theorem C3_witness :
    (1 : Int) ≤ 2 ∧
      ((([((0 : Int), true), (5, false)] : FrameSeq).filter (fun p => p.2)).length : Int) < 2 ∧
      analyze_continuity [((0 : Int), true), (5, false)] 2 = ∅ :=
  ⟨by norm_num, by decide, C3_theorem [((0 : Int), true), (5, false)] 2 (by norm_num) (by decide)⟩

/-- C4: every returned frame index is a key of the input mapping, is
detection-present there, and lies in a contiguous detection-present block
of length at least the threshold. -/
theorem C4_theorem (files : FrameSeq) (N : Int) (_h1 : 1 ≤ N)
    (hnd : (files.map Prod.fst).Nodup) :
    ∀ x ∈ analyze_continuity files N,
      x ∈ files.map Prod.fst ∧ ((x, true) ∈ files) ∧ validSpec files N x := by
  intro x hx
  rw [mem_analyze_iff files N hnd x] at hx
  obtain ⟨a, b, hax, hxb, hlen, hall⟩ := hx
  have hpres : (x, true) ∈ files := hall x hax hxb
  exact ⟨List.mem_map.mpr ⟨(x, true), hpres, rfl⟩, hpres,
    a, b, hax, hxb, le_trans (le_max_left N 2) hlen, hall⟩

/-- Witness for C4: postconditions evaluated at a concrete returned frame. -/
theorem C4_witness :
    (1 : Int) ≤ 1 ∧ (([((0 : Int), true), (1, true)] : FrameSeq).map Prod.fst).Nodup ∧
      ((0 : Int) ∈ ([((0 : Int), true), (1, true)] : FrameSeq).map Prod.fst ∧
        (((0 : Int), true) ∈ ([((0 : Int), true), (1, true)] : FrameSeq)) ∧
        validSpec [((0 : Int), true), (1, true)] 1 0) :=
  ⟨le_rfl, by decide, C4_theorem [((0 : Int), true), (1, true)] 1 le_rfl (by decide) 0 (by decide)⟩

/-- The spec's concrete gap scenario: frames 1..29 detection-present,
frame 30 absent from the mapping entirely, frames 31..60 detection-present. -/
def scenarioGap : FrameSeq :=
  ((List.range 29).map fun k => (((k : Int) + 1), true)) ++
    ((List.range 30).map fun k => (((k : Int) + 31), true))

set_option maxRecDepth 10000 in
/-- C5: on the gap scenario with threshold 30, `analyze_continuity` returns
exactly {31, ..., 60}: the gap at frame 30 breaks continuity, the length-29
block fails the threshold, and the length-30 block is fully included. -/
theorem C5_theorem :
    analyze_continuity scenarioGap 30 =
      ((List.range 30).map fun k => ((k : Int) + 31)).toFinset := by
  decide

/-- C6: `analyze_continuity`, embedded as a total Lean function, never
fails on well-typed input; empty input and sub-threshold input are normal
cases yielding the empty set. -/
theorem C6_theorem (N : Int) (_h1 : 1 ≤ N) :
    analyze_continuity ([] : FrameSeq) N = ∅ ∧
      ∀ files : FrameSeq, ((files.filter (fun p => p.2)).length : Int) < N →
        analyze_continuity files N = ∅ :=
  ⟨by simp [analyze_continuity], fun files hc => analyze_eq_empty_of_count_lt files N hc⟩

/-- Witness for C6 at threshold 1. -/
theorem C6_witness :
    (1 : Int) ≤ 1 ∧
      (analyze_continuity ([] : FrameSeq) 1 = ∅ ∧
        ∀ files : FrameSeq, ((files.filter (fun p => p.2)).length : Int) < 1 →
          analyze_continuity files 1 = ∅) :=
  ⟨le_rfl, C6_theorem 1 le_rfl⟩

/-- C7: `analyze_continuity` is deterministic and independent of the
iteration order of the input mapping: permuting the association list does
not change the result. -/
theorem C7_theorem (files1 files2 : FrameSeq) (N : Int)
    (hperm : List.Perm files1 files2) :
    analyze_continuity files1 N = analyze_continuity files2 N := by
  have hsf : sortedFrames files1 = sortedFrames files2 := by
    apply List.eq_of_perm_of_sorted _ (sortedFrames_sorted files1) (sortedFrames_sorted files2)
    exact (List.perm_insertionSort _ _).trans
      (((hperm.filter _).map _).trans (List.perm_insertionSort _ _).symm)
  by_cases hnil : files1 = []
  · have hnil2 : files2 = [] := by
      subst hnil
      exact hperm.symm.eq_nil
    rw [hnil, hnil2]
  · have hnil2 : ¬ files2 = [] := by
      intro h
      subst h
      exact hnil hperm.eq_nil
    unfold analyze_continuity
    rw [if_neg hnil, if_neg hnil2]
    simp only []
    rw [hsf]

/-- Witness for C7: two orderings of the same mapping. -/
theorem C7_witness :
    List.Perm ([((0 : Int), true), (1, true)] : FrameSeq) [((1 : Int), true), (0, true)] ∧
      analyze_continuity [((0 : Int), true), (1, true)] 5 =
        analyze_continuity [((1 : Int), true), (0, true)] 5 :=
  ⟨by decide, C7_theorem [((0 : Int), true), (1, true)] [((1 : Int), true), (0, true)] 5 (by decide)⟩

/-- C8: every returned frame index has a neighbour at distance exactly 1
that is also returned; in particular an isolated detection-present frame
is never returned, even at threshold 1. -/
theorem C8_theorem (files : FrameSeq) (N : Int)
    (hnd : (files.map Prod.fst).Nodup) (x : Int)
    (hx : x ∈ analyze_continuity files N) :
    x - 1 ∈ analyze_continuity files N ∨ x + 1 ∈ analyze_continuity files N := by
  rw [mem_analyze_iff files N hnd x] at hx
  obtain ⟨a, b, hax, hxb, hlen, hall⟩ := hx
  have h2 : (2 : Int) ≤ b + 1 - a := le_trans (le_max_right _ _) hlen
  by_cases hxb1 : x + 1 ≤ b
  · right
    rw [mem_analyze_iff files N hnd]
    exact ⟨a, b, by omega, hxb1, hlen, hall⟩
  · left
    rw [mem_analyze_iff files N hnd]
    exact ⟨a, b, by omega, by omega, hlen, hall⟩

/-- Witness for C8 at threshold 1. -/
theorem C8_witness :
    (([((0 : Int), true), (1, true)] : FrameSeq).map Prod.fst).Nodup ∧
      ((0 : Int) - 1 ∈ analyze_continuity [((0 : Int), true), (1, true)] 1 ∨
        (0 : Int) + 1 ∈ analyze_continuity [((0 : Int), true), (1, true)] 1) :=
  ⟨by decide, C8_theorem [((0 : Int), true), (1, true)] 1 (by decide) 0 (by decide)⟩

/-- C9: `extract_frame_number` is total; it returns a non-negative integer
iff the filename contains a decimal digit, returns -1 exactly when it
contains none, and the `process_all` orchestration keeps a file iff its
extracted number is non-negative, i.e. iff its name contains a digit. -/
theorem C9_theorem (s : List Char) :
    (0 ≤ extract_frame_number s ↔ s.any Char.isDigit = true) ∧
      (extract_frame_number s = -1 ↔ s.any Char.isDigit = false) ∧
      ∀ names : List (List Char),
        (s ∈ keptNames names ↔ s ∈ names ∧ s.any Char.isDigit = true) := by
  have key : (0 ≤ extract_frame_number s ↔ s.any Char.isDigit = true) ∧
      (extract_frame_number s = -1 ↔ s.any Char.isDigit = false) := by
    rcases Bool.eq_false_or_eq_true (s.any Char.isDigit) with h | h
    swap
    · have hv := extract_eq_neg_one_of_no_digit h
      constructor
      · constructor
        · intro h0
          rw [hv] at h0
          exact absurd h0 (by norm_num)
        · intro ht
          rw [h] at ht
          cases ht
      · exact iff_of_true hv h
    · have hv := extract_nonneg_of_digit h
      constructor
      · exact iff_of_true hv h
      · constructor
        · intro he
          rw [he] at hv
          exact absurd hv (by norm_num)
        · intro hf
          rw [h] at hf
          cases hf
  refine ⟨key.1, key.2, ?_⟩
  intro names
  unfold keptNames
  rw [List.mem_filter]
  constructor
  · rintro ⟨hmem, hdec⟩
    exact ⟨hmem, key.1.mp (of_decide_eq_true hdec)⟩
  · rintro ⟨hmem, hdig⟩
    exact ⟨hmem, decide_eq_true (key.1.mpr hdig)⟩

/-- C10: a non-positive threshold is accepted silently, and the result is
exactly the result for threshold 2: all frames lying in a contiguous
detection-present block of length at least 2. -/
theorem C10_theorem (files : FrameSeq) (N : Int) (hN : N ≤ 0)
    (hnd : (files.map Prod.fst).Nodup) :
    analyze_continuity files N = analyze_continuity files 2 ∧
      ∀ x : Int, x ∈ analyze_continuity files N ↔ validSpec files 2 x := by
  have hmemN : ∀ x : Int, x ∈ analyze_continuity files N ↔ validSpec files 2 x := by
    intro x
    rw [mem_analyze_iff files N hnd x, max_eq_right (by omega : N ≤ 2)]
  have hmem2 : ∀ x : Int, x ∈ analyze_continuity files 2 ↔ validSpec files 2 x := by
    intro x
    rw [mem_analyze_iff files 2 hnd x, max_self]
  exact ⟨Finset.ext fun x => (hmemN x).trans (hmem2 x).symm, hmemN⟩

/-- Witness for C10 at threshold 0. -/
theorem C10_witness :
    (0 : Int) ≤ 0 ∧ (([((3 : Int), true), (4, true)] : FrameSeq).map Prod.fst).Nodup ∧
      (analyze_continuity [((3 : Int), true), (4, true)] 0 =
          analyze_continuity [((3 : Int), true), (4, true)] 2 ∧
        ∀ x : Int, x ∈ analyze_continuity [((3 : Int), true), (4, true)] 0 ↔
          validSpec [((3 : Int), true), (4, true)] 2 x) :=
  ⟨le_rfl, by decide, C10_theorem [((3 : Int), true), (4, true)] 0 le_rfl (by decide)⟩

end ContinuousFilter

section SanityChecks
open ContinuousFilter

example : analyze_continuity [((0 : Int), true)] 1 = ∅ := by decide

example : analyze_continuity [((0 : Int), true), (1, true)] 1 = {0, 1} := by decide

example : analyze_continuity [((0 : Int), true), (1, true), (2, true), (5, true)] 2 =
    {0, 1, 2} := by decide

example : analyze_continuity [((5 : Int), true), (0, true), (1, true), (2, true)] 3 =
    {0, 1, 2} := by decide

example : analyze_continuity [((0 : Int), true), (1, false), (2, true)] 1 = ∅ := by decide

example : extract_frame_number "frame_0001.txt".toList = 1 := by decide

example : extract_frame_number "0001.txt".toList = 1 := by decide

example : extract_frame_number "IMG123.TXT".toList = 123 := by decide

example : extract_frame_number "12ab34.txt".toList = 34 := by decide

example : extract_frame_number "v2clip7_0042.txt".toList = 42 := by decide

example : extract_frame_number "nodigits.txt".toList = -1 := by decide

example : extract_frame_number "".toList = -1 := by decide

end SanityChecks
